import Mathlib

/-!
# Verification of the `quareia` static-site builder (`src/build.py`)

This file gives a shallow embedding of the core logic of `src/build.py`:

* `slugify`                  — lines 27–35
* the timestamp splitting / body restructuring of `parse_post` — lines 66–157
* the sort-key extraction of `parse_post`                      — lines 206–213
* the date/title inference of `parse_post`                     — lines 217–228
* `write_if_changed`         — lines 240–264
* the per-day incremental rebuild gate of `build`              — lines 389–395
* the entry sorting of `build`                                 — line 376
* the tag aggregation of `build`                               — lines 320–332
* the output writing and stale-file cleanup of `build`         — lines 397–449

Python strings are modelled as `List Char` (wrapped in `String` at the
interfaces), file modification times as natural numbers, and the output
directory as an association list from filename to file record.  The regular
expressions appearing in the source are hand-compiled to deterministic
matchers over `List Char`; each matcher documents the exact pattern it
implements and follows Python `re` semantics (leftmost match, lazy/greedy
repetition) for that pattern.
-/

namespace Quareia

/-! ## Character classes (ASCII fragments of Python's `\d`, `\s`, `\w`, `[A-Z]`) -/

/-- Python `\d` (ASCII range, the only digits relevant here). -/
def isPyDigit (c : Char) : Bool := '0' ≤ c && c ≤ '9'

/-- Python `\s`: space, tab, newline, carriage return, vertical tab, form feed
(code points 32, 9, 10, 13, 11, 12). -/
def isPySpace (c : Char) : Bool :=
  c.toNat = 32 || c.toNat = 9 || c.toNat = 10 || c.toNat = 13 || c.toNat = 11 || c.toNat = 12

/-- Python `[A-Z]`. -/
def isUpperAZ (c : Char) : Bool := 65 ≤ c.toNat && c.toNat ≤ 90

/-- Python `\w` on an ASCII string: `[a-zA-Z0-9_]`. -/
def isWordCh (c : Char) : Bool :=
  (97 ≤ c.toNat && c.toNat ≤ 122) || (65 ≤ c.toNat && c.toNat ≤ 90) ||
    (48 ≤ c.toNat && c.toNat ≤ 57) || c.toNat = 95

/-- ASCII lowercasing, as Python `str.lower()` acts on a pure-ASCII string. -/
def pyLowerCh (c : Char) : Char :=
  if 65 ≤ c.toNat ∧ c.toNat ≤ 90 then Char.ofNat (c.toNat + 32) else c

/-- Python `str.strip()` on the left: drop leading whitespace. -/
def lstripWs (cs : List Char) : List Char := cs.dropWhile isPySpace

/-- Python `str.strip()`: drop leading and trailing whitespace. -/
def stripWs (cs : List Char) : List Char :=
  ((cs.dropWhile isPySpace).reverse.dropWhile isPySpace).reverse

/-! ## `slugify` (src/build.py lines 27–35)

```python
def slugify(value):
    value = unicodedata.normalize('NFKD', value).encode('ascii', 'ignore').decode('ascii')
    value = re.sub(r'[^\w\s-]', '', value.lower())
    return re.sub(r'[-\s]+', '-', value).strip('-')
```
-/

/-- Models `unicodedata.normalize('NFKD', ·)` character-wise for the characters
used in this development: NFKD is the identity on ASCII, and decomposes
precomposed Latin letters into base letter plus combining mark (U+0301 acute,
U+0300 grave, U+0308 diaeresis, U+0327 cedilla).  Characters outside this table
are kept as-is. -/
def nfkdChar (c : Char) : List Char :=
  if c.toNat < 128 then [c]
  else if c = 'é' then ['e', Char.ofNat 769]
  else if c = 'É' then ['E', Char.ofNat 769]
  else if c = 'è' then ['e', Char.ofNat 768]
  else if c = 'à' then ['a', Char.ofNat 768]
  else if c = 'á' then ['a', Char.ofNat 769]
  else if c = 'ö' then ['o', Char.ofNat 776]
  else if c = 'ü' then ['u', Char.ofNat 776]
  else if c = 'ç' then ['c', Char.ofNat 807]
  else [c]

/-- `c` is a character collapsed by `re.sub(r'[-\s]+', '-', ·)`. -/
def isDashWs (c : Char) : Bool := c = '-' || isPySpace c

/-- `re.sub(r'[-\s]+', '-', ·)`: replace every maximal run of `[-\s]` characters
by a single hyphen.  `inRun` records whether a run is currently open. -/
def collapseRuns : Bool → List Char → List Char
  | inRun, [] => if inRun then ['-'] else []
  | inRun, c :: rest =>
    if isDashWs c then collapseRuns true rest
    else if inRun then '-' :: c :: collapseRuns false rest
    else c :: collapseRuns false rest

/-- Python `str.strip('-')`: drop leading and trailing hyphens. -/
def stripDashes (cs : List Char) : List Char :=
  ((cs.dropWhile (fun c => c = '-')).reverse.dropWhile (fun c => c = '-')).reverse

/-- `slugify` on `List Char`. -/
def slugifyL (cs : List Char) : List Char :=
  let ascii := (cs.flatMap nfkdChar).filter (fun c => c.toNat < 128)
  let lowered := ascii.map pyLowerCh
  let kept := lowered.filter (fun c => isWordCh c || isPySpace c || c = '-')
  stripDashes (collapseRuns false kept)

/-- `slugify` (src/build.py lines 27–35). -/
def slugify (s : String) : String := String.mk (slugifyL s.data)

/-! ## Incremental rebuild gate for day pages (src/build.py lines 389–395)

```python
needs_rebuild = True
if not force and os.path.exists(output_path):
    output_mtime = os.stat(output_path).st_mtime
    if output_mtime > global_mtime and output_mtime > group['max_mtime']:
        needs_rebuild = False
```
-/

/-- The change decision for one output page.  `outputExists` is
`os.path.exists(output_path)`; `outputMtime` is its modification time
(meaningful only when it exists); `globalDepsMaxMtime` is `global_mtime`;
`contentMaxMtime` is `group['max_mtime']`. -/
def needsRebuild (outputExists : Bool) (outputMtime globalDepsMaxMtime contentMaxMtime : Nat)
    (force : Bool) : Bool :=
  if !force && outputExists then
    if outputMtime > globalDepsMaxMtime && outputMtime > contentMaxMtime then false else true
  else true

/-! ## Day-group entries and their sort (src/build.py lines 354–362 and 376)

```python
posts_by_date[date]['entries'].append({
    'content': ..., 'image': ..., 'sort_key': ..., 'is_tech': is_tech,
    'is_future': is_future, 'filename': file, 'raw_content': ...})
...
group['entries'].sort(key=lambda x: (x['is_tech'], x['sort_key'], x['filename']))
```
-/

/-- One element of a `DayGroup`'s `entries` list (the dict built at
lines 354–362 of `src/build.py`). -/
structure Entry where
  content : String
  image : Option String
  sort_key : String
  is_tech : Bool
  is_future : Bool
  filename : String
  raw_content : String

/-- The Python sort key `(x['is_tech'], x['sort_key'], x['filename'])`,
compared lexicographically with `False < True` on booleans. -/
def entryKey (e : Entry) : Lex (Bool × Lex (String × String)) :=
  toLex (e.is_tech, toLex (e.sort_key, e.filename))

/-- Boolean comparison realising Python's ascending tuple order on `entryKey`. -/
def entryLe (a b : Entry) : Bool := decide (entryKey a ≤ entryKey b)

/-- `group['entries'].sort(key=...)` (line 376): sort ascending by `entryKey`. -/
def sortEntries (l : List Entry) : List Entry := l.mergeSort entryLe

/-! ## Timestamp-token splitting (src/build.py lines 66–71)

```python
timestamp_pattern = r'((?:^|\n).*?\[\[\s*\d{4}[/ ]\d{2}[/ ]\d{2}[ T](?:\d{2}:\d{2}:\d{2}|\d{2}:\d{2}|\d{4}) \(?[A-Z]{3}\)?\s*\]\])'
parts = re.split(timestamp_pattern, body)
```

The pattern is hand-compiled below.  Each sub-matcher consumes a prefix of the
character list and returns the remaining suffix (`none` on failure).  All the
greedy pieces (`\s*`, `\(?`, `\)?`) are followed by a character they can never
consume, so maximal munch is exact; the time alternation is tried in source
order with the tail re-attempted per alternative, exactly as the backtracking
engine does. -/

/-- `\s*` (greedy). -/
def dropWs (cs : List Char) : List Char := cs.dropWhile isPySpace

/-- `\d{n}`: consume exactly `n` digits. -/
def matchDigits : Nat → List Char → Option (List Char)
  | 0, cs => some cs
  | _ + 1, [] => none
  | n + 1, c :: cs => if isPyDigit c then matchDigits n cs else none

/-- A single character satisfying `p`. -/
def matchCh (p : Char → Bool) : List Char → Option (List Char)
  | [] => none
  | c :: cs => if p c then some cs else none

/-- A literal character sequence. -/
def matchLit : List Char → List Char → Option (List Char)
  | [], cs => some cs
  | _ :: _, [] => none
  | l :: ls, c :: cs => if c = l then matchLit ls cs else none

/-- `\d{2}:\d{2}:\d{2}`. -/
def matchTime8 (cs : List Char) : Option (List Char) := do
  let cs ← matchDigits 2 cs
  let cs ← matchCh (fun c => c = ':') cs
  let cs ← matchDigits 2 cs
  let cs ← matchCh (fun c => c = ':') cs
  matchDigits 2 cs

/-- `\d{2}:\d{2}`. -/
def matchTime5 (cs : List Char) : Option (List Char) := do
  let cs ← matchDigits 2 cs
  let cs ← matchCh (fun c => c = ':') cs
  matchDigits 2 cs

/-- ` \(?[A-Z]{3}\)?\s*\]\]` — the tail of the timestamp token after the time.
`\(?` and `\)?` are deterministic: if consuming the parenthesis fails later,
the path without it fails as well (`(` and `)` match neither `[A-Z]` nor `\s`
nor `]`). -/
def matchTzTail (cs : List Char) : Option (List Char) := do
  let cs ← matchCh (fun c => c = ' ') cs
  let cs := match cs with
    | '(' :: r => r
    | r => r
  let cs ← matchCh isUpperAZ cs
  let cs ← matchCh isUpperAZ cs
  let cs ← matchCh isUpperAZ cs
  let cs := match cs with
    | ')' :: r => r
    | r => r
  matchLit [']', ']'] (dropWs cs)

/-- `\d{4}[/ ]\d{2}[/ ]\d{2}[ T]`: the date part, ending with the date/time
separator. -/
def matchDatePart (cs : List Char) : Option (List Char) := do
  let cs ← matchDigits 4 cs
  let cs ← matchCh (fun c => c = '/' || c = ' ') cs
  let cs ← matchDigits 2 cs
  let cs ← matchCh (fun c => c = '/' || c = ' ') cs
  let cs ← matchDigits 2 cs
  matchCh (fun c => c = ' ' || c = 'T') cs

/-- `\[\[\s*\d{4}[/ ]\d{2}[/ ]\d{2}[ T](?:\d{2}:\d{2}:\d{2}|\d{2}:\d{2}|\d{4}) \(?[A-Z]{3}\)?\s*\]\]`
— the bracketed core of the timestamp token, anchored at the current position.
Returns the remaining suffix. -/
def matchCore (cs : List Char) : Option (List Char) := do
  let cs ← matchLit ['[', '['] cs
  let cs := dropWs cs
  let cs ← matchDatePart cs
  match matchTime8 cs >>= matchTzTail with
  | some r => some r
  | none =>
    match matchTime5 cs >>= matchTzTail with
    | some r => some r
    | none => matchDigits 4 cs >>= matchTzTail

/-- Scan a single line (`.*?` is lazy and cannot cross a newline) for the
leftmost position where `matchCore` succeeds.  Returns the consumed line
prefix, the matched core text, and the rest. -/
def scanLine : List Char → Option (List Char × List Char × List Char)
  | [] => none
  | c :: rest =>
    match matchCore (c :: rest) with
    | some r =>
      some ([], (c :: rest).take ((c :: rest).length - r.length), r)
    | none =>
      if c = '\n' then none
      else (scanLine rest).map (fun pr => (c :: pr.1, pr.2.1, pr.2.2))

/-- Search for the leftmost `\n` from which the rest of the pattern matches
(the `\n` alternative of `(?:^|\n)`).  `acc` is the text skipped so far,
reversed. -/
def findAfterNl : List Char → List Char → Option (List Char × List Char × List Char)
  | _, [] => none
  | acc, c :: rest =>
    if c = '\n' then
      match scanLine rest with
      | some (p, t, r) => some (acc.reverse, '\n' :: (p ++ t), r)
      | none => findAfterNl (c :: acc) rest
    else findAfterNl (c :: acc) rest

/-- Find the leftmost match of the whole timestamp pattern.  `atStart` is true
when the current search position is the start of the string (where the `^`
alternative of `(?:^|\n)` can fire).  Returns
`(text before the match, matched text, rest)`. -/
def findTsMatch (atStart : Bool) (cs : List Char) : Option (List Char × List Char × List Char) :=
  match (if atStart then scanLine cs else none) with
  | some (p, t, r) => some ([], p ++ t, r)
  | none => findAfterNl [] cs

/-- Tail of `re.split`: repeatedly find the next match (never at `^` any
more).  Each match consumes at least the four characters `[[]]`, so a fuel of
the remaining length suffices. -/
def splitTsGo : Nat → List Char → List (List Char)
  | 0, cs => [cs]
  | fuel + 1, cs =>
    match findTsMatch false cs with
    | none => [cs]
    | some (pre, tok, rest) => pre :: tok :: splitTsGo fuel rest

/-- `re.split(timestamp_pattern, body)` (line 71): the list alternates
non-matching text and matched tokens, beginning and ending with text. -/
def splitTsL (cs : List Char) : List (List Char) :=
  match findTsMatch true cs with
  | none => [cs]
  | some (pre, tok, rest) => pre :: tok :: splitTsGo cs.length rest

/-- String-level wrapper for `splitTsL`. -/
def splitTs (b : String) : List String := (splitTsL b.data).map String.mk

/-! ## Tag markup processing (src/build.py lines 73–96)

```python
def process_tags(text, extract=False):
    ...
    new_text = re.sub(r'<<\s*(.*?)\s*>>', replace_tag_match, text)
    return new_text, extracted_html
```
Every call site passes `extract=False`, so the replacement is done in place.
The lazy group `(.*?)` cannot cross a newline; the surrounding `\s*` are
resolved as the backtracking engine does: leading whitespace maximal, group
minimal (which entails the group never ends in whitespace), trailing
whitespace maximal up to the literal `>>`. -/

/-- A tag discovered in body markup: display name and computed slug
(the dicts appended to `found_tags` at line 85). -/
structure TagNS where
  name : String
  slug : String
deriving DecidableEq

/-- `\s*>>` at the current position (deterministic: `>` is not whitespace). -/
def tagCloseAt (cs : List Char) : Option (List Char) := matchLit ['>', '>'] (dropWs cs)

/-- Lazy scan for the end of the `(.*?)` group: at each position first try to
close with `\s*>>`, else extend the group by one non-newline character.
`acc` is the group read so far, reversed. -/
def tagInner : List Char → List Char → Option (List Char × List Char)
  | acc, [] =>
    match tagCloseAt [] with
    | some r => some (acc.reverse, r)
    | none => none
  | acc, c :: rest =>
    match tagCloseAt (c :: rest) with
    | some r => some (acc.reverse, r)
    | none => if c = '\n' then none else tagInner (c :: acc) rest

/-- Try to match `<<\s*(.*?)\s*>>` at the current position; returns the group
text and the suffix after `>>`. -/
def matchTagAt (cs : List Char) : Option (List Char × List Char) :=
  match cs with
  | '<' :: '<' :: r => tagInner [] (dropWs r)
  | _ => none

/-- Python `raw_tags.split(',')` (keeps empty fields). -/
def splitComma : List Char → List (List Char)
  | [] => [[]]
  | c :: rest =>
    match splitComma rest with
    | [] => [[c]]
    | h :: t => if c = ',' then [] :: h :: t else (c :: h) :: t

/-- The rendered `<ul>` replacing one `<< ... >>` occurrence (lines 82–87). -/
def tagListHtml (names : List (List Char)) : List Char :=
  "<ul>".data ++
    names.flatMap (fun n =>
      "<li><a href=\"tag_".data ++ slugifyL n ++ ".html\">".data ++ n ++ "</a></li>".data) ++
    "</ul>".data

/-- The `re.sub` scan of `process_tags`: walk the text, replacing each
non-overlapping leftmost match and recording every tag in order.  Each match
consumes at least four characters, so `length + 1` fuel suffices. -/
def processTagsGo : Nat → List Char → List TagNS → List Char × List TagNS
  | 0, cs, tags => (cs, tags)
  | fuel + 1, cs, tags =>
    match cs with
    | [] => ([], tags)
    | c :: rest =>
      match matchTagAt (c :: rest) with
      | some (g, afterTag) =>
        let names := (splitComma g).map stripWs
        let newTags := names.map (fun n => TagNS.mk (String.mk n) (String.mk (slugifyL n)))
        let (r2, tags2) := processTagsGo fuel afterTag (tags ++ newTags)
        (tagListHtml names ++ r2, tags2)
      | none =>
        let (r2, tags2) := processTagsGo fuel rest tags
        (c :: r2, tags2)

/-- `process_tags(text, extract=False)`, threading the `found_tags`
accumulator. -/
def processTagsL (cs : List Char) (tags : List TagNS) : List Char × List TagNS :=
  processTagsGo (cs.length + 1) cs tags

/-! ## Timestamp heading construction (src/build.py lines 112–138) -/

/-- Split at the first occurrence of `[[`:
returns `(text before, text from the brackets on)`. -/
def firstBBSplit : List Char → Option (List Char × List Char)
  | '[' :: '[' :: rest => some ([], '[' :: '[' :: rest)
  | c :: rest => (firstBBSplit rest).map (fun p => (c :: p.1, p.2))
  | [] => none

/-- `re.match(r'^(.*?)(\[\[.*?\]\])$', ts_raw, re.DOTALL)`: succeeds exactly
when the string ends in `]]` and contains `[[`; the first group is the text
before the first `[[`, the second group the rest. -/
def splitTitleTs (t : List Char) : Option (List Char × List Char) :=
  match firstBBSplit t with
  | none => none
  | some (pre, suf) =>
    if t.reverse.take 2 = [']', ']'] ∧ suf.length ≥ 4 then some (pre, suf) else none

/-- Lines 116–125: join an optional inline title and the bracketed timestamp
with `<br/>`. -/
def headerTsL (ts_raw : List Char) : List Char :=
  match splitTitleTs ts_raw with
  | some (pre, suf) =>
    let title := stripWs pre
    let tsp := stripWs suf
    if title = [] then tsp else title ++ "<br/>".data ++ tsp
  | none => ts_raw

/-- `\[\[\s*(\d{4}[/ ]\d{2}[/ ]\d{2})` anchored at the current position
(the group used by the dead future-date check at line 128). -/
def matchHdrDateAt (cs : List Char) : Option (List Char) := do
  let cs1 ← matchLit ['[', '['] cs
  let cs2 := dropWs cs1
  let r ← (do
    let a ← matchDigits 4 cs2
    let a ← matchCh (fun c => c = '/' || c = ' ') a
    let a ← matchDigits 2 a
    let a ← matchCh (fun c => c = '/' || c = ' ') a
    matchDigits 2 a)
  some (cs2.take (cs2.length - r.length))

/-- `re.search` for the pattern above: leftmost match. -/
def findHdrDate : List Char → Option (List Char)
  | [] => none
  | c :: rest =>
    match matchHdrDateAt (c :: rest) with
    | some g => some g
    | none => findHdrDate rest

/-- Lines 112–138: build the rendered `<h3>` heading for one timestamp token
(already `.strip()`-ed).  Mirrors the source exactly: `is_future_ts` is
initialised to `False`; the `if ts_match:` branch computes a date string for
it but never updates it; the class list gains `"future-warning"` only when
`is_future_ts` is true. -/
def mkTsHeader (ts_raw : List Char) : List Char :=
  let ts := headerTsL ts_raw
  let ts_match := findHdrDate ts
  let is_future_ts := false
  let _ts_date_str :=
    ts_match.map (fun g => g.map (fun c => if c = '/' || c = ' ' then '-' else c))
  let classes := ["timestamp-header"] ++ (if is_future_ts then ["future-warning"] else [])
  "<h3 class=\"".data ++ (String.intercalate " " classes).data ++ "\">".data ++ ts ++ "</h3>".data

/-! ## Body restructuring (src/build.py lines 98–157) -/

/-- One element of the `new_body_parts` list: either the literal horizontal
rule separator `"\n\n---\n\n"` appended at line 149, or ordinary text. -/
inductive BPart
  | sep
  | text (s : List Char)
deriving DecidableEq

/-- The characters a `BPart` contributes to the joined body. -/
def bpartChars : BPart → List Char
  | BPart.sep => "\n\n---\n\n".data
  | BPart.text s => s

/-- The loop at lines 110–155: for each `(timestamp, content)` pair build an
entry block (heading, blank line, left-stripped tag-processed content) and
separate entries after the first with the horizontal rule part.  A dangling
odd element cannot arise from `re.split` output; the loop bound
`num_entries = (len(parts) - 1) // 2` ignores it. -/
def entriesGo : Bool → List (List Char) → List TagNS → List BPart × List TagNS
  | _, [], tags => ([], tags)
  | _, [_], tags => ([], tags)
  | first, ts :: content :: rest, tags =>
    let hdr := mkTsHeader (stripWs ts)
    let (c2, tags2) := processTagsL content tags
    let block := hdr ++ "\n\n".data ++ lstripWs c2
    let (ps, tags3) := entriesGo false rest tags2
    ((if first then [BPart.text block] else [BPart.sep, BPart.text block]) ++ ps, tags3)

/-- Lines 98–157: if the split found no timestamp token the body is
tag-processed in place; otherwise the preamble is tag-processed and the
token/content pairs become separated entry blocks. -/
def restructureL (body : List Char) : List BPart × List TagNS :=
  match splitTsL body with
  | [b] =>
    let (b2, tags) := processTagsL b []
    ([BPart.text b2], tags)
  | [] => ([], [])
  | pre :: rest =>
    let (p2, tags1) := processTagsL pre []
    let (ps, tags2) := entriesGo true rest tags1
    (BPart.text p2 :: ps, tags2)

/-- The restructured body as a string (the value of `body` after line 157). -/
def restructuredBody (b : String) : String :=
  String.mk (((restructureL b.data).1).flatMap bpartChars)

/-- Number of horizontal-rule separators inserted by the restructuring. -/
def sepCount (b : String) : Nat :=
  (restructureL b.data).1.countP (fun p => match p with | BPart.sep => true | _ => false)

/-! ## Sort-key extraction (src/build.py lines 206–213)

```python
ts_match = re.search(r'\[\[\s*(\d{4}[/ ]\d{2}[/ ]\d{2}[ T]\d{2}:\d{2}:\d{2})', body)
sort_key = ts_match.group(1) if ts_match else "9999/99/99 99:99:99"
if ts_match:
    sort_key = sort_key.replace(' ', '/').replace('T', '/')
```
-/

/-- The sort-key pattern anchored at the current position; returns the
group `\d{4}[/ ]\d{2}[/ ]\d{2}[ T]\d{2}:\d{2}:\d{2}` (which requires explicit
seconds, unlike the splitting pattern). -/
def matchSortTsAt (cs : List Char) : Option (List Char) := do
  let cs1 ← matchLit ['[', '['] cs
  let cs2 := dropWs cs1
  let r ← (do
    let a ← matchDatePart cs2
    matchTime8 a)
  some (cs2.take (cs2.length - r.length))

/-- `re.search` for the sort-key pattern: leftmost match. -/
def findSortTs : List Char → Option (List Char)
  | [] => none
  | c :: rest =>
    match matchSortTsAt (c :: rest) with
    | some g => some g
    | none => findSortTs rest

/-- The maximal sentinel used when no timestamp is found. -/
def sentinelKey : String := "9999/99/99 99:99:99"

/-- `sort_key.replace(' ', '/').replace('T', '/')` acts character-wise. -/
def normSortChar (c : Char) : Char := if c = ' ' || c = 'T' then '/' else c

/-- Lines 206–213: the sort key derived from a (restructured, post-processed)
body. -/
def sortKeyOf (body : String) : String :=
  match findSortTs body.data with
  | some g => String.mk (g.map normSortChar)
  | none => sentinelKey

/-! ## `write_if_changed` (src/build.py lines 240–264)

```python
should_write = True
if not force and os.path.exists(path):
    current_content = open(path).read()
    time_pattern = r'updated last: \d{4}/\d{2}/\d{2} \d{2}:\d{2}:\d{2} (EST|UTC)'
    norm_new = re.sub(time_pattern, '', content)
    norm_old = re.sub(time_pattern, '', current_content)
    if norm_new == norm_old:
        should_write = False
if should_write:
    open(path, 'w').write(content)
```
-/

/-- The volatile timestamp pattern
`updated last: \d{4}/\d{2}/\d{2} \d{2}:\d{2}:\d{2} (EST|UTC)` anchored at the
current position. -/
def matchUpdatedAt (cs : List Char) : Option (List Char) := do
  let cs ← matchLit "updated last: ".data cs
  let cs ← matchDigits 4 cs
  let cs ← matchCh (fun c => c = '/') cs
  let cs ← matchDigits 2 cs
  let cs ← matchCh (fun c => c = '/') cs
  let cs ← matchDigits 2 cs
  let cs ← matchCh (fun c => c = ' ') cs
  let cs ← matchDigits 2 cs
  let cs ← matchCh (fun c => c = ':') cs
  let cs ← matchDigits 2 cs
  let cs ← matchCh (fun c => c = ':') cs
  let cs ← matchDigits 2 cs
  let cs ← matchCh (fun c => c = ' ') cs
  match matchLit "EST".data cs with
  | some r => some r
  | none => matchLit "UTC".data cs

/-- `re.sub(time_pattern, '', ·)`: delete every non-overlapping leftmost
match.  Each match consumes 37 characters, so `length + 1` fuel suffices. -/
def normalizeUpdatedGo : Nat → List Char → List Char
  | 0, cs => cs
  | _ + 1, [] => []
  | fuel + 1, c :: rest =>
    match matchUpdatedAt (c :: rest) with
    | some r => normalizeUpdatedGo fuel r
    | none => c :: normalizeUpdatedGo fuel rest

/-- Normalise away the volatile `updated last:` field. -/
def normalizeUpdated (s : String) : String :=
  String.mk (normalizeUpdatedGo (s.data.length + 1) s.data)

/-- The write decision of `write_if_changed`: `existing` is the pre-existing
file content (if the file exists). -/
def shouldWrite (existing : Option String) (content : String) (force : Bool) : Bool :=
  match existing with
  | none => true
  | some current =>
    if !force then
      if normalizeUpdated content = normalizeUpdated current then false else true
    else true

/-! ## Output directory model and the write/cleanup phase of `build`
(src/build.py lines 389–449) -/

/-- A file in the (top level of the) output directory. -/
structure FileRec where
  content : String
  mtime : Nat
deriving DecidableEq

/-- The top level of the output directory: filename to file record. -/
abbrev FS := List (String × FileRec)

/-- Look a filename up (first match). -/
def lookupFS : FS → String → Option FileRec
  | [], _ => none
  | (n, r) :: rest, name => if n = name then some r else lookupFS rest name

/-- Write a file: replaces any previous entry; the new record's mtime is the
current time. -/
def writeFS (fs : FS) (name : String) (content : String) (now : Nat) : FS :=
  (name, ⟨content, now⟩) :: fs.filter (fun e => e.1 != name)

/-- One day group as seen by the write phase: its date and
`group['max_mtime']`. -/
structure DayGroupR where
  date : String
  maxMtime : Nat
deriving DecidableEq

/-- `group['url'] = f"{date}.html"` (line 339). -/
def dayUrl (g : DayGroupR) : String := g.date ++ ".html"

/-- The mtime of a possibly-absent file (only consulted when it exists). -/
def mtimeOf (o : Option FileRec) : Nat :=
  match o with
  | some r => r.mtime
  | none => 0

/-- Lines 389–409: the incremental gate plus unconditional write for one day
page.  `render` stands for `post_template.render(...)`. -/
def dayPageStep (force : Bool) (globalM now : Nat) (render : DayGroupR → String)
    (fs : FS) (g : DayGroupR) : FS :=
  if needsRebuild (lookupFS fs (dayUrl g)).isSome (mtimeOf (lookupFS fs (dayUrl g)))
      globalM g.maxMtime force then
    writeFS fs (dayUrl g) (render g) now
  else fs

/-- `write_if_changed` acting on the directory model. -/
def writeIfChangedFS (fs : FS) (path content : String) (force : Bool) (now : Nat) : FS :=
  if shouldWrite ((lookupFS fs path).map (fun r => r.content)) content force then
    writeFS fs path content now
  else fs

/-- `tag_filename = f"tag_{slug}.html"` (line 431). -/
def tagUrl (slug : String) : String := "tag_" ++ slug ++ ".html"

/-- `f.endswith('.html')`. -/
def endsHtml (s : String) : Bool := s.data.reverse.take 5 == ['l', 'm', 't', 'h', '.']

/-- The `generated_files` set accumulated during the run (lines 368–443):
one day page per group, the index, the tags index, one page per tag page. -/
def generatedFiles (groups : List DayGroupR) (tagPages : List (String × String)) : List String :=
  groups.map dayUrl ++ ["index.html", "tags.html"] ++ tagPages.map (fun p => tagUrl p.1)

/-- Lines 445–449: remove every `.html` file not in `generated_files`. -/
def cleanupFS (fs : FS) (gen : List String) : FS :=
  fs.filter (fun e => !(endsHtml e.1 && !(gen.contains e.1)))

/-- The whole write/cleanup phase of one `build` run over the output
directory: day pages through the mtime gate, then `index.html`, `tags.html`
and the tag pages through `write_if_changed`, then stale-file cleanup.
`tagPages` pairs each tag slug with its rendered page. -/
def buildRun (fs0 : FS) (groups : List DayGroupR) (render : DayGroupR → String)
    (indexHtml tagsHtml : String) (tagPages : List (String × String))
    (force : Bool) (globalM now : Nat) : FS :=
  let fs1 := groups.foldl (dayPageStep force globalM now render) fs0
  let fs2 := writeIfChangedFS fs1 "index.html" indexHtml force now
  let fs3 := writeIfChangedFS fs2 "tags.html" tagsHtml force now
  let fs4 := tagPages.foldl (fun fs p => writeIfChangedFS fs (tagUrl p.1) p.2 force now) fs3
  cleanupFS fs4 (generatedFiles groups tagPages)

/-! ## Date/title inference (src/build.py lines 217–228)

```python
if 'date' not in frontmatter:
    match = re.match(r'(\d{4}-\d{2}-\d{2})', filename)
    if match:
        frontmatter['date'] = match.group(1)
    else:
        frontmatter['date'] = datetime.now().strftime('%Y-%m-%d')
if 'title' not in frontmatter:
    frontmatter['title'] = frontmatter['date']
```
-/

/-- A frontmatter value: the simple parser coerces `true`/`false` to booleans
and leaves everything else a string (lines 56–64). -/
inductive FmVal
  | str (s : String)
  | bool (b : Bool)
deriving DecidableEq

/-- Frontmatter as an association list (insertion-ordered like a dict). -/
abbrev Frontmatter := List (String × FmVal)

/-- Dict lookup (first match). -/
def fmGet : Frontmatter → String → Option FmVal
  | [], _ => none
  | (k, v) :: rest, key => if k = key then some v else fmGet rest key

/-- `key in frontmatter`. -/
def fmHas (fm : Frontmatter) (key : String) : Bool := (fmGet fm key).isSome

/-- Dict assignment for a key known to be absent. -/
def fmSet (fm : Frontmatter) (key : String) (v : FmVal) : Frontmatter := fm ++ [(key, v)]

/-- `re.match(r'(\d{4}-\d{2}-\d{2})', filename)`: anchored at the start;
returns the matched group. -/
def matchFileDate (cs : List Char) : Option (List Char) := do
  let a ← matchDigits 4 cs
  let a ← matchCh (fun c => c = '-') a
  let a ← matchDigits 2 a
  let a ← matchCh (fun c => c = '-') a
  let r ← matchDigits 2 a
  some (cs.take (cs.length - r.length))

/-- Lines 218–225: infer `date` from the filename or the current date
(`today`) when absent. -/
def inferDate (fm : Frontmatter) (filename today : String) : Frontmatter :=
  if fmHas fm "date" then fm
  else
    match matchFileDate filename.data with
    | some d => fmSet fm "date" (FmVal.str (String.mk d))
    | none => fmSet fm "date" (FmVal.str today)

/-- Lines 227–228: default `title` to the `date` value when absent. -/
def inferTitle (fm : Frontmatter) : Frontmatter :=
  if fmHas fm "title" then fm
  else
    match fmGet fm "date" with
    | some v => fmSet fm "title" v
    | none => fm

/-- Lines 217–228: the metadata after both inference steps. -/
def inferDateTitle (fm : Frontmatter) (filename today : String) : Frontmatter :=
  inferTitle (inferDate fm filename today)

/-! ## Tag aggregation (src/build.py lines 320–332)

```python
daily_url = f"{date}.html"
for tag in post['tags']:
    if tag['slug'] not in all_tags:
        all_tags[tag['slug']] = {'name': tag['name'], 'slug': tag['slug'], 'posts': []}
    if not any(p['url'] == daily_url for p in all_tags[tag['slug']]['posts']):
        all_tags[tag['slug']]['posts'].append({'title': ..., 'date': date, 'url': daily_url})
```
-/

/-- A `{title, date, url}` reference stored under a tag. -/
structure PostRef where
  title : String
  date : String
  url : String
deriving DecidableEq

/-- One value of the `all_tags` dict. -/
structure TagAgg where
  name : String
  slug : String
  posts : List PostRef
deriving DecidableEq

/-- `all_tags` as an insertion-ordered association list keyed by slug. -/
abbrev TagTable := List (String × TagAgg)

/-- Dict lookup (first match). -/
def lookupTbl : TagTable → String → Option TagAgg
  | [], _ => none
  | (k, v) :: rest, key => if k = key then some v else lookupTbl rest key

/-- Replace the value stored under an existing key. -/
def updateTbl : TagTable → String → TagAgg → TagTable
  | [], _, _ => []
  | (k, v) :: rest, key, a => if k = key then (k, a) :: rest else (k, v) :: updateTbl rest key a

/-- Lines 323–324: create the table entry on first sight of a slug. -/
def aggInsert (tbl : TagTable) (x : TagNS × PostRef) : TagTable :=
  match lookupTbl tbl x.1.slug with
  | none => tbl ++ [(x.1.slug, ⟨x.1.name, x.1.slug, []⟩)]
  | some _ => tbl

/-- Lines 327–332: append the post reference unless its url is already
recorded under the slug. -/
def aggAppend (tbl : TagTable) (x : TagNS × PostRef) : TagTable :=
  match lookupTbl tbl x.1.slug with
  | some agg =>
    if agg.posts.any (fun p => p.url == x.2.url) then tbl
    else updateTbl tbl x.1.slug { agg with posts := agg.posts ++ [x.2] }
  | none => tbl

/-- The loop body for one discovered tag occurrence. -/
def aggStep (tbl : TagTable) (x : TagNS × PostRef) : TagTable :=
  aggAppend (aggInsert tbl x) x

/-- A post as seen by the aggregation loop: title, date and its in-body tags
in discovery order. -/
structure PostTags where
  title : String
  date : String
  tags : List TagNS

/-- `daily_url = f"{date}.html"` (line 321). -/
def dailyUrlOf (p : PostTags) : String := p.date ++ ".html"

/-- The `{title, date, url}` reference a post contributes. -/
def postRefOf (p : PostTags) : PostRef := ⟨p.title, p.date, dailyUrlOf p⟩

/-- The tag-occurrence stream of a build: posts in processing order, each
post's tags in discovery order (the nested loops at lines 314–332,
linearised). -/
def flatTags (posts : List PostTags) : List (TagNS × PostRef) :=
  posts.flatMap (fun p => p.tags.map (fun t => (t, postRefOf p)))

/-- The `all_tags` table after processing all posts. -/
def aggTags (posts : List PostTags) : TagTable := (flatTags posts).foldl aggStep []

/-- The order the specification claims for sorted day-group entries:
tech-variant flag ascending (non-tech first), then sort key ascending within
equal tech status, then filename ascending as the final tiebreak. -/
def entryClaimOrder (a b : Entry) : Prop :=
  (a.is_tech = false ∧ b.is_tech = true) ∨
    (a.is_tech = b.is_tech ∧
      (a.sort_key < b.sort_key ∨ (a.sort_key = b.sort_key ∧ a.filename ≤ b.filename)))

/-- Characters that can appear in a slug: a hyphen, or a word character that
is not an upper-case letter. -/
def OutCh (c : Char) : Prop := c = '-' ∨ (isWordCh c = true ∧ isUpperAZ c = false)

/-- Adjacent-character relation of slugs: no two consecutive hyphens. -/
def NoDD (a b : Char) : Prop := ¬(a = '-' ∧ b = '-')

/-! ## Small lemmas on the association-list helpers -/

theorem fmGet_append_of_some {fm : Frontmatter} {k : String} {v : FmVal}
    (h : fmGet fm k = some v) (fm2 : Frontmatter) : fmGet (fm ++ fm2) k = some v := by
  induction fm with
  | nil => simp [fmGet] at h
  | cons e rest ih =>
    by_cases hk : e.1 = k
    · simpa [fmGet, hk] using by simpa [fmGet, hk] using h
    · simp only [fmGet, hk, if_neg hk, List.cons_append] at h ⊢
      exact ih h

theorem fmGet_append_of_none {fm : Frontmatter} {k : String}
    (h : fmGet fm k = none) (fm2 : Frontmatter) : fmGet (fm ++ fm2) k = fmGet fm2 k := by
  induction fm with
  | nil => simp
  | cons e rest ih =>
    by_cases hk : e.1 = k
    · simp [fmGet, hk] at h
    · simp only [fmGet, hk, if_neg hk, List.cons_append] at h ⊢
      exact ih h

/-! ## C1 — the change decision -/

/-- C1: `needsRebuild` is true if `force` is true, true if the output file
does not exist, and otherwise true exactly unless the output's modification
time is strictly greater than both `globalDepsMaxMtime` and
`contentMaxMtime`. -/
theorem needsRebuild_spec (ex : Bool) (outM gM cM : Nat) (force : Bool) :
    (force = true → needsRebuild ex outM gM cM force = true) ∧
    (ex = false → needsRebuild ex outM gM cM force = true) ∧
    (force = false → ex = true →
      (needsRebuild ex outM gM cM force = true ↔ ¬(outM > gM ∧ outM > cM))) := by
  refine ⟨fun h => ?_, fun h => ?_, fun hf hx => ?_⟩
  · subst h; simp [needsRebuild]
  · subst h; simp [needsRebuild]
  · subst hf; subst hx
    by_cases h : outM > gM ∧ outM > cM
    · simp [needsRebuild, h.1, h.2, h]
    · have : (decide (outM > gM) && decide (outM > cM)) = false := by
        rcases Decidable.not_and_iff_or_not.mp h with h1 | h1 <;> simp [h1]
      simp [needsRebuild, this, h]

/-- Witness for C1 at a concrete input. -/
theorem needsRebuild_spec_w : needsRebuild true 5 3 4 true = true :=
  (needsRebuild_spec true 5 3 4 true).1 rfl

/-! ## C10 — timestamp headings never carry the future-warning class -/

/-- C10: for every timestamp token, the rendered heading's class attribute is
exactly `timestamp-header`; `is_future_ts` is never set, so `future-warning`
is never emitted, regardless of the token's date value. -/
theorem tsHeader_class_const (t : List Char) :
    mkTsHeader t = "<h3 class=\"timestamp-header\">".data ++ headerTsL t ++ "</h3>".data := rfl

/-! ## C7 — write-only-when-changed -/

/-- Counterexample to C7 as stated: a per-day page is rewritten by the build
run even though its normalized content equals the pre-existing file's
(`force` false, file exists): the day-page gate looks only at mtimes.  Here
the old and the new rendering differ only in the volatile `updated last:`
field, so the normalized forms agree, yet the output mtimes make
`needsRebuild` fire and the file is rewritten with the new content. -/
theorem dayPage_rewrites_unchanged_content :
    normalizeUpdated "<p>updated last: 2026/02/02 09:09:09 EST</p>" =
        normalizeUpdated "<p>updated last: 2025/01/01 00:00:00 UTC</p>" ∧
    lookupFS
        (dayPageStep false 3 100 (fun _ => "<p>updated last: 2026/02/02 09:09:09 EST</p>")
          [("2025-01-01.html", ⟨"<p>updated last: 2025/01/01 00:00:00 UTC</p>", 5⟩)]
          ⟨"2025-01-01", 10⟩)
        "2025-01-01.html" =
      some ⟨"<p>updated last: 2026/02/02 09:09:09 EST</p>", 100⟩ := by
  constructor
  · decide
  · decide

/-- C7 (amended): the outputs written through `write_if_changed` — the index,
the tags index and the per-tag pages — are not rewritten when the new content
and the pre-existing content are equal after normalizing away the volatile
`updated last:` field and `force` is false. -/
theorem writeIfChanged_skips_unchanged (fs : FS) (path content : String) (now : Nat)
    (r : FileRec) (hex : lookupFS fs path = some r)
    (heq : normalizeUpdated content = normalizeUpdated r.content) :
    writeIfChangedFS fs path content false now = fs := by
  unfold writeIfChangedFS shouldWrite
  rw [hex]
  simp [heq]

/-- Witness for the amended C7 at a concrete input. -/
theorem writeIfChanged_skips_unchanged_w :
    writeIfChangedFS [("index.html", ⟨"<p>updated last: 2025/01/01 00:00:00 UTC</p>", 7⟩)]
        "index.html" "<p>updated last: 2026/03/03 01:02:03 EST</p>" false 9 =
      [("index.html", ⟨"<p>updated last: 2025/01/01 00:00:00 UTC</p>", 7⟩)] :=
  writeIfChanged_skips_unchanged _ "index.html" _ 9
    ⟨"<p>updated last: 2025/01/01 00:00:00 UTC</p>", 7⟩ (by decide) (by decide)

/-! ## C8 — date/title inference -/

/-- C8: after parsing, `metadata.date` is always present; when the
frontmatter has no `date` key it is inferred from a leading `YYYY-MM-DD`
filename pattern when present and otherwise is the current date; when the
frontmatter has no `title` key, `metadata.title` equals `metadata.date`. -/
theorem fmGet_set_self (g : Frontmatter) (k : String) (v : FmVal) (h : fmGet g k = none) :
    fmGet (fmSet g k v) k = some v := by
  unfold fmSet
  rw [fmGet_append_of_none h]
  simp [fmGet]

theorem fmGet_set_ne (g : Frontmatter) (k k2 : String) (v : FmVal) (hne : k ≠ k2) :
    fmGet (fmSet g k v) k2 = fmGet g k2 := by
  unfold fmSet
  cases h : fmGet g k2 with
  | some w => rw [fmGet_append_of_some h]
  | none => rw [fmGet_append_of_none h]; simp [fmGet, hne]

theorem fmHas_of_get_some {g : Frontmatter} {k : String} {v : FmVal}
    (h : fmGet g k = some v) : fmHas g k = true := by
  unfold fmHas
  rw [h]
  rfl

theorem fmHas_of_get_none {g : Frontmatter} {k : String}
    (h : fmGet g k = none) : fmHas g k = false := by
  unfold fmHas
  rw [h]
  rfl

theorem fmGet_none_of_has_false {g : Frontmatter} {k : String}
    (h : fmHas g k = false) : fmGet g k = none := by
  unfold fmHas at h
  cases h2 : fmGet g k with
  | none => rfl
  | some v => rw [h2] at h; cases h

/-- The date-inference step, characterised by the cases of the source. -/
theorem inferDate_spec (fm : Frontmatter) (filename today : String) :
    (fmHas fm "date" = true → inferDate fm filename today = fm) ∧
    (fmHas fm "date" = false →
      (∀ d, matchFileDate filename.data = some d →
        inferDate fm filename today = fmSet fm "date" (FmVal.str (String.mk d))) ∧
      (matchFileDate filename.data = none →
        inferDate fm filename today = fmSet fm "date" (FmVal.str today))) := by
  unfold inferDate
  refine ⟨fun h => by rw [if_pos h], fun h => ⟨fun d hd => ?_, fun hn => ?_⟩⟩
  · rw [if_neg (by simp [h]), hd]
  · rw [if_neg (by simp [h]), hn]

/-- The title-defaulting step, characterised for any dict whose `date` key is
populated. -/
theorem inferTitle_spec (g : Frontmatter) (v : FmVal) (hg : fmGet g "date" = some v) :
    fmGet (inferTitle g) "date" = some v ∧
    (fmHas g "title" = false → fmGet (inferTitle g) "title" = some v) := by
  unfold inferTitle fmHas
  cases h2 : fmGet g "title" with
  | some w => simp [h2, hg]
  | none =>
    simp only [h2, Option.isSome_none, Bool.false_eq_true, if_false, hg]
    constructor
    · rw [fmGet_set_ne g "title" "date" v (by decide)]
      exact hg
    · intro _
      exact fmGet_set_self g "title" v h2

/-- C8: after parsing, `metadata.date` is always present; when the
frontmatter has no `date` key it is inferred from a leading `YYYY-MM-DD`
filename pattern when present and otherwise is the current date; when the
frontmatter has no `title` key, `metadata.title` equals `metadata.date`. -/
theorem inferDateTitle_spec (fm : Frontmatter) (filename today : String) :
    fmHas (inferDateTitle fm filename today) "date" = true ∧
    (fmHas fm "date" = false →
      (∀ d, matchFileDate filename.data = some d →
        fmGet (inferDateTitle fm filename today) "date" = some (FmVal.str (String.mk d))) ∧
      (matchFileDate filename.data = none →
        fmGet (inferDateTitle fm filename today) "date" = some (FmVal.str today))) ∧
    (fmHas fm "title" = false →
      fmGet (inferDateTitle fm filename today) "title" =
        fmGet (inferDateTitle fm filename today) "date") := by
  unfold inferDateTitle
  have hds := inferDate_spec fm filename today
  cases h1 : fmGet fm "date" with
  | some v =>
    rw [hds.1 (fmHas_of_get_some h1)]
    have h := inferTitle_spec fm v h1
    refine ⟨fmHas_of_get_some h.1, fun hfalse => ?_, fun ht => ?_⟩
    · rw [fmHas_of_get_some h1] at hfalse; cases hfalse
    · rw [h.1, h.2 ht]
  | none =>
    have hd : fmHas fm "date" = false := fmHas_of_get_none h1
    cases hm : matchFileDate filename.data with
    | some d =>
      rw [(hds.2 hd).1 d hm]
      have hv : fmGet (fmSet fm "date" (FmVal.str (String.mk d))) "date" =
          some (FmVal.str (String.mk d)) := fmGet_set_self fm "date" _ h1
      have h := inferTitle_spec _ _ hv
      refine ⟨fmHas_of_get_some h.1,
        fun _ => ⟨fun d2 hd2 => ?_, fun hnone => Option.noConfusion hnone⟩,
        fun ht => ?_⟩
      · obtain rfl : d = d2 := Option.some.inj hd2
        exact h.1
      · have ht1 : fmHas (fmSet fm "date" (FmVal.str (String.mk d))) "title" = false :=
          fmHas_of_get_none (by
            rw [fmGet_set_ne fm "date" "title" _ (by decide)]
            exact fmGet_none_of_has_false ht)
        rw [h.1, h.2 ht1]
    | none =>
      rw [(hds.2 hd).2 hm]
      have hv : fmGet (fmSet fm "date" (FmVal.str today)) "date" =
          some (FmVal.str today) := fmGet_set_self fm "date" _ h1
      have h := inferTitle_spec _ _ hv
      refine ⟨fmHas_of_get_some h.1,
        fun _ => ⟨fun d2 hd2 => Option.noConfusion hd2, fun _ => h.1⟩,
        fun ht => ?_⟩
      have ht1 : fmHas (fmSet fm "date" (FmVal.str today)) "title" = false :=
        fmHas_of_get_none (by
          rw [fmGet_set_ne fm "date" "title" _ (by decide)]
          exact fmGet_none_of_has_false ht)
      rw [h.1, h.2 ht1]

/-- Witness for C8: the spec's scenario, a frontmatter-less file
`2025-03-04-note.md`. -/
theorem inferDateTitle_spec_w :
    fmGet (inferDateTitle [] "2025-03-04-note.md" "2099-01-01") "date" =
        some (FmVal.str "2025-03-04") ∧
    fmGet (inferDateTitle [] "2025-03-04-note.md" "2099-01-01") "title" =
        some (FmVal.str "2025-03-04") := by
  have h := inferDateTitle_spec [] "2025-03-04-note.md" "2099-01-01"
  have hd := (h.2.1 (by decide)).1 "2025-03-04".data (by decide)
  have ht := h.2.2 (by decide)
  exact ⟨hd, ht.trans hd⟩

/-! ## C3 — horizontal-rule separators -/

/-- C3: a body in which the splitting pattern finds exactly two timestamp
tokens (`re.split` returns five parts) is restructured with exactly one
horizontal-rule separator between the two entry blocks; zero or one token
(one or three parts) yields zero inserted separators. -/
theorem hr_separator_count (b : String) :
    ((splitTs b).length = 5 → sepCount b = 1) ∧
    ((splitTs b).length = 3 ∨ (splitTs b).length = 1 → sepCount b = 0) := by
  have hlen : (splitTs b).length = (splitTsL b.data).length := List.length_map _ _
  unfold sepCount restructureL
  rcases hl : splitTsL b.data with _ | ⟨a, _ | ⟨t1, _ | ⟨c1, _ | ⟨t2, _ | ⟨c2, rest⟩⟩⟩⟩⟩ <;>
    rw [hl] at hlen
  · exact ⟨fun h => by rw [hlen] at h; simp at h, fun h => by rw [hlen] at h; simp at h⟩
  · refine ⟨fun h => by rw [hlen] at h; simp at h, fun _ => ?_⟩
    simp
  · exact ⟨fun h => by rw [hlen] at h; simp at h, fun h => by rw [hlen] at h; simp at h⟩
  · refine ⟨fun h => by rw [hlen] at h; simp at h, fun _ => ?_⟩
    simp [entriesGo]
  · exact ⟨fun h => by rw [hlen] at h; simp at h, fun h => by rw [hlen] at h; simp at h⟩
  · refine ⟨fun h => ?_, fun h => ?_⟩
    · rw [hlen] at h
      simp only [List.length_cons] at h
      have hrest : rest = [] := List.eq_nil_of_length_eq_zero (by omega)
      subst hrest
      simp [entriesGo]
    · rw [hlen] at h
      simp only [List.length_cons] at h
      omega

/-- Witness for C3: a body with exactly two timestamp tokens yields exactly
one separator, one with a single token yields none. -/
theorem hr_separator_count_w :
    sepCount "[[2025/01/02 10:00:00 EST]]\nhello\n[[2025/01/03 11:00:00 EST]]\nbye" = 1 ∧
    sepCount "[[2025/01/02 10:00:00 EST]]\nhello" = 0 := by
  constructor
  · exact (hr_separator_count _).1 (by decide)
  · exact (hr_separator_count _).2 (Or.inl (by decide))

/-! ## C5 — sort-key derivation -/

/-- Counterexample to C5 as stated: the body `[[2025/01/02 10:00 EST]]`
contains a timestamp token per the spec's pattern (seconds omitted; the
splitting pattern finds it, and it remains present in the restructured body),
yet the derived sort key is the sentinel, because the sort-key regex at
line 207 requires explicit `HH:MM:SS` seconds. -/
theorem sortKey_seconds_cex :
    (splitTs "[[2025/01/02 10:00 EST]]").length = 3 ∧
    (splitTs (restructuredBody "[[2025/01/02 10:00 EST]]")).length = 3 ∧
    sortKeyOf (restructuredBody "[[2025/01/02 10:00 EST]]") = sentinelKey := by
  exact ⟨by decide, by decide, by decide⟩

/-- C5 (amended): the sort key equals the first timestamp token with explicit
seconds (`\[\[\s*\d{4}[/ ]\d{2}[/ ]\d{2}[ T]\d{2}:\d{2}:\d{2}`) found in the
body, normalized by mapping the space/`T` delimiters to `/` (so the key
contains neither a space nor a `T`); the sort key is the sentinel exactly when
no such token is present (tokens omitting seconds are ignored). -/
theorem sortKey_characterization (b : String) :
    (sortKeyOf b = sentinelKey ↔ findSortTs b.data = none) ∧
    (∀ g, findSortTs b.data = some g →
      sortKeyOf b = String.mk (g.map normSortChar) ∧
      ∀ c ∈ (sortKeyOf b).data, c ≠ ' ' ∧ c ≠ 'T') := by
  have hnorm : ∀ c : Char, normSortChar c ≠ ' ' ∧ normSortChar c ≠ 'T' := by
    intro c
    unfold normSortChar
    split
    · exact ⟨by decide, by decide⟩
    · rename_i hc
      constructor
      · intro h
        exact hc (by rw [h]; decide)
      · intro h
        exact hc (by rw [h]; decide)
  constructor
  · constructor
    · intro h
      cases hg : findSortTs b.data with
      | none => rfl
      | some g =>
        exfalso
        unfold sortKeyOf at h
        rw [hg] at h
        have hd : g.map normSortChar = sentinelKey.data := congrArg String.data h
        have hmem : ' ' ∈ sentinelKey.data := by decide
        rw [← hd] at hmem
        obtain ⟨c0, _, hc0⟩ := List.mem_map.mp hmem
        exact (hnorm c0).1 hc0
    · intro h
      unfold sortKeyOf
      rw [h]
  · intro g hg
    unfold sortKeyOf
    rw [hg]
    refine ⟨rfl, fun c hc => ?_⟩
    obtain ⟨c0, _, rfl⟩ := List.mem_map.mp hc
    exact hnorm c0

/-- Witness for the amended C5 at a concrete input. -/
theorem sortKey_characterization_w :
    sortKeyOf "x [[2025/01/02 10:00:00 EST]] y" =
      String.mk ("2025/01/02 10:00:00".data.map normSortChar) :=
  (((sortKey_characterization _).2 "2025/01/02 10:00:00".data) (by decide)).1

/-! ## C2 — entry sort order -/

/-- C2: sorting a day group's entries with the code's key
`(is_tech, sort_key, filename)` permutes the entries and orders them by:
tech flag ascending (every non-tech entry before every tech entry), then sort
key ascending within equal tech status, then filename ascending as the final
tiebreak. -/
theorem entries_sorted (l : List Entry) :
    (sortEntries l).Perm l ∧ (sortEntries l).Pairwise entryClaimOrder := by
  constructor
  · exact List.mergeSort_perm l entryLe
  · have htrans : ∀ a b c : Entry,
        entryLe a b = true → entryLe b c = true → entryLe a c = true := by
      intro a b c hab hbc
      unfold entryLe at hab hbc ⊢
      exact decide_eq_true (le_trans (of_decide_eq_true hab) (of_decide_eq_true hbc))
    have htotal : ∀ a b : Entry, (entryLe a b || entryLe b a) = true := by
      intro a b
      unfold entryLe
      rcases le_total (entryKey a) (entryKey b) with h | h
      · simp [h]
      · simp [h]
    have hs := List.sorted_mergeSort htrans htotal l
    refine hs.imp ?_
    intro a b hab
    have h : entryKey a ≤ entryKey b := of_decide_eq_true hab
    unfold entryKey at h
    rcases (Prod.Lex.le_iff _ _).mp h with h1 | ⟨h1, h2⟩
    · exact Or.inl (Bool.lt_iff.mp h1)
    · right
      refine ⟨h1, ?_⟩
      rcases (Prod.Lex.le_iff _ _).mp h2 with h3 | ⟨h3, h4⟩
      · exact Or.inl h3
      · exact Or.inr ⟨h3, h4⟩

/-! ## C6 — slug merging -/

theorem lookupTbl_append_some {tbl : TagTable} {s : String} {a : TagAgg}
    (h : lookupTbl tbl s = some a) (t2 : TagTable) : lookupTbl (tbl ++ t2) s = some a := by
  induction tbl with
  | nil => simp [lookupTbl] at h
  | cons e rest ih =>
    by_cases hk : e.1 = s
    · simp only [lookupTbl, if_pos hk] at h
      simp only [List.cons_append, lookupTbl, if_pos hk]
      exact h
    · simp only [lookupTbl, if_neg hk] at h
      simp only [List.cons_append, lookupTbl, if_neg hk]
      exact ih h

theorem lookupTbl_append_none {tbl : TagTable} {s : String}
    (h : lookupTbl tbl s = none) (t2 : TagTable) : lookupTbl (tbl ++ t2) s = lookupTbl t2 s := by
  induction tbl with
  | nil => simp
  | cons e rest ih =>
    by_cases hk : e.1 = s
    · simp [lookupTbl, if_pos hk] at h
    · simp only [lookupTbl, if_neg hk] at h
      simp only [List.cons_append, lookupTbl, if_neg hk]
      exact ih h

theorem lookupTbl_update_of_some {tbl : TagTable} {k : String} {v : TagAgg} (a : TagAgg)
    (h : lookupTbl tbl k = some v) : lookupTbl (updateTbl tbl k a) k = some a := by
  induction tbl with
  | nil => simp [lookupTbl] at h
  | cons e rest ih =>
    by_cases hk : e.1 = k
    · simp [updateTbl, if_pos hk, lookupTbl, hk]
    · simp only [lookupTbl, if_neg hk] at h
      simp only [updateTbl, if_neg hk, lookupTbl]
      exact ih h

theorem lookupTbl_update_ne {k s : String} (tbl : TagTable) (a : TagAgg) (hne : k ≠ s) :
    lookupTbl (updateTbl tbl k a) s = lookupTbl tbl s := by
  induction tbl with
  | nil => rfl
  | cons e rest ih =>
    by_cases hk : e.1 = k
    · simp only [updateTbl, if_pos hk, lookupTbl]
      rw [if_neg (hk ▸ hne), if_neg (hk ▸ hne)]
    · simp only [updateTbl, if_neg hk, lookupTbl]
      by_cases hs : e.1 = s
      · rw [if_pos hs, if_pos hs]
      · rw [if_neg hs, if_neg hs]
        exact ih

theorem updateTbl_keys (tbl : TagTable) (k : String) (a : TagAgg) :
    (updateTbl tbl k a).map Prod.fst = tbl.map Prod.fst := by
  induction tbl with
  | nil => rfl
  | cons e rest ih =>
    by_cases hk : e.1 = k
    · simp [updateTbl, if_pos hk]
    · simp [updateTbl, if_neg hk, ih]

theorem lookupTbl_none_iff (tbl : TagTable) (s : String) :
    lookupTbl tbl s = none ↔ s ∉ tbl.map Prod.fst := by
  induction tbl with
  | nil => simp [lookupTbl]
  | cons e rest ih =>
    by_cases hk : e.1 = s
    · simp [lookupTbl, if_pos hk, hk]
    · simp [lookupTbl, if_neg hk, ih, Ne.symm hk]

theorem aggInsert_lookup_some {tbl : TagTable} {s : String} {a : TagAgg}
    (x : TagNS × PostRef) (h : lookupTbl tbl s = some a) :
    lookupTbl (aggInsert tbl x) s = some a := by
  unfold aggInsert
  split
  · exact lookupTbl_append_some h _
  · exact h

theorem aggInsert_own {tbl : TagTable} (x : TagNS × PostRef)
    (h : lookupTbl tbl x.1.slug = none) :
    lookupTbl (aggInsert tbl x) x.1.slug = some ⟨x.1.name, x.1.slug, []⟩ := by
  unfold aggInsert
  split
  · rw [lookupTbl_append_none h]
    simp [lookupTbl]
  · rename_i w heq
    rw [h] at heq
    cases heq

theorem aggInsert_other {tbl : TagTable} {s : String} (x : TagNS × PostRef)
    (hne : x.1.slug ≠ s) : lookupTbl (aggInsert tbl x) s = lookupTbl tbl s := by
  unfold aggInsert
  split
  · cases h2 : lookupTbl tbl s with
    | some w => exact lookupTbl_append_some h2 _
    | none =>
      rw [lookupTbl_append_none h2]
      simp [lookupTbl, hne]
  · rfl

theorem aggAppend_preserves_name {tbl : TagTable} {s : String} {a : TagAgg}
    (x : TagNS × PostRef) (h : lookupTbl tbl s = some a) :
    ∃ a2, lookupTbl (aggAppend tbl x) s = some a2 ∧ a2.name = a.name := by
  unfold aggAppend
  split
  · rename_i agg heq
    split
    · exact ⟨a, h, rfl⟩
    · by_cases hs : x.1.slug = s
      · subst hs
        rw [h] at heq
        cases heq
        exact ⟨_, lookupTbl_update_of_some _ h, rfl⟩
      · exact ⟨a, by rw [lookupTbl_update_ne _ _ hs]; exact h, rfl⟩
  · exact ⟨a, h, rfl⟩

theorem aggAppend_other {tbl : TagTable} {s : String} (x : TagNS × PostRef)
    (hne : x.1.slug ≠ s) : lookupTbl (aggAppend tbl x) s = lookupTbl tbl s := by
  unfold aggAppend
  split
  · split
    · rfl
    · exact lookupTbl_update_ne _ _ hne
  · rfl

theorem aggAppend_keys (tbl : TagTable) (x : TagNS × PostRef) :
    (aggAppend tbl x).map Prod.fst = tbl.map Prod.fst := by
  unfold aggAppend
  split
  · split
    · rfl
    · exact updateTbl_keys _ _ _
  · rfl

/-- `aggStep` preserves the display name stored under any already-present
slug (it only ever appends to `posts`). -/
theorem aggStep_preserves_name {tbl : TagTable} {s : String} {a : TagAgg}
    (x : TagNS × PostRef) (h : lookupTbl tbl s = some a) :
    ∃ a2, lookupTbl (aggStep tbl x) s = some a2 ∧ a2.name = a.name := by
  unfold aggStep
  exact aggAppend_preserves_name x (aggInsert_lookup_some x h)

/-- `aggStep` creates an entry for its own slug when absent, with the
first-seen display name. -/
theorem aggStep_creates {tbl : TagTable} (x : TagNS × PostRef)
    (h : lookupTbl tbl x.1.slug = none) :
    ∃ a2, lookupTbl (aggStep tbl x) x.1.slug = some a2 ∧ a2.name = x.1.name := by
  unfold aggStep
  exact aggAppend_preserves_name x (aggInsert_own x h)

/-- `aggStep` touches no slug other than its own. -/
theorem aggStep_other {tbl : TagTable} {s : String} (x : TagNS × PostRef)
    (hne : x.1.slug ≠ s) : lookupTbl (aggStep tbl x) s = lookupTbl tbl s := by
  unfold aggStep
  rw [aggAppend_other x hne]
  exact aggInsert_other x hne

/-- Folding `aggStep` over a tag-occurrence stream: any slug present in the
result either was already present (name unchanged) or was created by the
first occurrence with that slug (its name wins). -/
theorem agg_fold_name : ∀ (xs : List (TagNS × PostRef)) (tbl : TagTable) (s : String) (a : TagAgg),
    lookupTbl (xs.foldl aggStep tbl) s = some a →
    (∃ a0, lookupTbl tbl s = some a0 ∧ a0.name = a.name) ∨
    (lookupTbl tbl s = none ∧
      ∃ t, xs.find? (fun x => x.1.slug == s) = some t ∧ a.name = t.1.name) := by
  intro xs
  induction xs with
  | nil =>
    intro tbl s a h
    exact Or.inl ⟨a, h, rfl⟩
  | cons x rest ih =>
    intro tbl s a h
    rcases ih (aggStep tbl x) s a h with ⟨a1, h1, hn1⟩ | ⟨h1, t, hfind, hn⟩
    · cases h0 : lookupTbl tbl s with
      | some a0 =>
        obtain ⟨a2, ha2, hname2⟩ := aggStep_preserves_name x h0
        rw [ha2] at h1
        cases h1
        exact Or.inl ⟨a0, rfl, by rw [← hn1, hname2]⟩
      | none =>
        by_cases hs : x.1.slug = s
        · subst hs
          obtain ⟨a2, ha2, hname2⟩ := aggStep_creates x h0
          rw [ha2] at h1
          cases h1
          refine Or.inr ⟨rfl, ⟨x, ?_, by rw [← hn1, hname2]⟩⟩
          simp [List.find?]
        · rw [aggStep_other x hs] at h1
          rw [h0] at h1
          cases h1
    · have h0 : lookupTbl tbl s = none := by
        cases h0 : lookupTbl tbl s with
        | none => rfl
        | some a0 =>
          obtain ⟨a2, ha2, _⟩ := aggStep_preserves_name x h0
          rw [ha2] at h1
          cases h1
      have hs : x.1.slug ≠ s := by
        intro he
        obtain ⟨a2, ha2, _⟩ := aggStep_creates x (he ▸ h0)
        rw [he] at ha2
        rw [h1] at ha2
        cases ha2
      refine Or.inr ⟨h0, ⟨t, ?_, hn⟩⟩
      have hpx : (x.1.slug == s) = false := by
        simp [hs]
      rw [List.find?_cons, hpx]
      exact hfind

theorem aggInsert_keys_nodup {tbl : TagTable} (x : TagNS × PostRef)
    (h : (tbl.map Prod.fst).Nodup) : ((aggInsert tbl x).map Prod.fst).Nodup := by
  unfold aggInsert
  split
  · rename_i heq
    have hnotin : x.1.slug ∉ tbl.map Prod.fst := (lookupTbl_none_iff tbl x.1.slug).mp heq
    rw [List.map_append]
    simp only [List.map_cons, List.map_nil]
    refine List.Nodup.append h (List.nodup_singleton _) ?_
    intro a ha hb
    rw [List.mem_singleton] at hb
    exact hnotin (hb ▸ ha)
  · exact h

/-- Folding `aggStep` keeps the slug keys of the table without duplicates. -/
theorem agg_fold_keys_nodup : ∀ (xs : List (TagNS × PostRef)) (tbl : TagTable),
    (tbl.map Prod.fst).Nodup → ((xs.foldl aggStep tbl).map Prod.fst).Nodup := by
  intro xs
  induction xs with
  | nil => intro tbl h; exact h
  | cons x rest ih =>
    intro tbl h
    refine ih (aggStep tbl x) ?_
    unfold aggStep
    rw [aggAppend_keys]
    exact aggInsert_keys_nodup x h

/-- C6: `slugify` is a pure function merging case/accent variants —
`slugify "Café" = slugify "cafe"` — and during aggregation two tags sharing a
slug are merged into one table entry (slug keys are duplicate-free) whose
display name is the first-seen name. -/
theorem tag_slug_merge :
    slugify "Café" = slugify "cafe" ∧
    (∀ (posts : List PostTags) (s : String) (a : TagAgg),
      lookupTbl (aggTags posts) s = some a →
      ∃ t, (flatTags posts).find? (fun x => x.1.slug == s) = some t ∧ a.name = t.1.name) ∧
    (∀ posts : List PostTags, ((aggTags posts).map Prod.fst).Nodup) := by
  refine ⟨by decide, fun posts s a h => ?_, fun posts => agg_fold_keys_nodup _ [] (by simp)⟩
  rcases agg_fold_name (flatTags posts) [] s a h with ⟨a0, h0, _⟩ | ⟨_, t, hf, hn⟩
  · cases h0
  · exact ⟨t, hf, hn⟩

/-- Witness for C6's merge clause at a concrete input: two posts tagging
`Café` and `cafe` end up under one slug whose display name is `Café`. -/
theorem tag_slug_merge_w :
    ∃ t, ((flatTags
        [⟨"T", "2025-01-01", [⟨"Café", slugify "Café"⟩]⟩,
         ⟨"U", "2025-01-02", [⟨"cafe", slugify "cafe"⟩]⟩]).find?
          (fun x => x.1.slug == "cafe")) = some t ∧
      (TagAgg.mk "Café" "cafe"
        [⟨"T", "2025-01-01", "2025-01-01.html"⟩, ⟨"U", "2025-01-02", "2025-01-02.html"⟩]).name
        = t.1.name :=
  tag_slug_merge.2.1
    [⟨"T", "2025-01-01", [⟨"Café", slugify "Café"⟩]⟩,
     ⟨"U", "2025-01-02", [⟨"cafe", slugify "cafe"⟩]⟩]
    "cafe" _ (by decide)

/-! ## C4 — the output set after a build run -/

theorem lookupFS_filterKeys (p : String → Bool) (fs : FS) (name : String) :
    lookupFS (fs.filter (fun e => p e.1)) name =
      if p name then lookupFS fs name else none := by
  induction fs with
  | nil => cases hp : p name <;> simp [lookupFS, hp]
  | cons e rest ih =>
    by_cases he : e.1 = name
    · subst he
      cases hp : p e.1 <;> simp [lookupFS, hp, ih]
    · cases hp : p e.1 <;> cases hn : p name <;>
        simp_all [lookupFS, List.filter_cons, hp, he, ih]

theorem lookupFS_writeFS_self (fs : FS) (n c : String) (t : Nat) :
    lookupFS (writeFS fs n c t) n = some ⟨c, t⟩ := by
  simp [writeFS, lookupFS]

theorem lookupFS_writeFS_ne (fs : FS) {n m : String} (c : String) (t : Nat) (h : n ≠ m) :
    lookupFS (writeFS fs n c t) m = lookupFS fs m := by
  unfold writeFS
  simp only [lookupFS, if_neg h]
  rw [lookupFS_filterKeys (fun k => k != n) fs m,
    if_pos (by simpa using Ne.symm h)]

/-- `needsRebuild` can only be false when the output exists. -/
theorem needsRebuild_false_exists {ex : Bool} {o g c : Nat} {f : Bool}
    (h : needsRebuild ex o g c f = false) : ex = true := by
  cases ex
  · unfold needsRebuild at h
    simp at h
  · rfl

theorem dayStep_own_some (force : Bool) (globalM now : Nat) (render : DayGroupR → String)
    (fs : FS) (g : DayGroupR) :
    (lookupFS (dayPageStep force globalM now render fs g) (dayUrl g)).isSome = true := by
  unfold dayPageStep
  split
  · rw [lookupFS_writeFS_self]
    rfl
  · rename_i hn
    rw [Bool.not_eq_true] at hn
    exact needsRebuild_false_exists hn

theorem dayStep_preserves_some (force : Bool) (globalM now : Nat)
    (render : DayGroupR → String) (fs : FS) (g : DayGroupR) {name : String}
    (h : (lookupFS fs name).isSome = true) :
    (lookupFS (dayPageStep force globalM now render fs g) name).isSome = true := by
  unfold dayPageStep
  split
  · by_cases he : dayUrl g = name
    · subst he
      rw [lookupFS_writeFS_self]
      rfl
    · rw [lookupFS_writeFS_ne _ _ _ he]
      exact h
  · exact h

theorem dayStep_frame (force : Bool) (globalM now : Nat) (render : DayGroupR → String)
    (fs : FS) (g : DayGroupR) {name : String} (h : name ≠ dayUrl g) :
    lookupFS (dayPageStep force globalM now render fs g) name = lookupFS fs name := by
  unfold dayPageStep
  split
  · exact lookupFS_writeFS_ne _ _ _ (Ne.symm h)
  · rfl

theorem dayFold_preserves_some (force : Bool) (globalM now : Nat)
    (render : DayGroupR → String) {name : String} :
    ∀ (gs : List DayGroupR) (fs : FS), (lookupFS fs name).isSome = true →
      (lookupFS (gs.foldl (dayPageStep force globalM now render) fs) name).isSome = true := by
  intro gs
  induction gs with
  | nil => intro fs h; exact h
  | cons g rest ih =>
    intro fs h
    exact ih _ (dayStep_preserves_some force globalM now render fs g h)

theorem dayFold_mem_some (force : Bool) (globalM now : Nat) (render : DayGroupR → String)
    {g : DayGroupR} :
    ∀ (gs : List DayGroupR) (fs : FS), g ∈ gs →
      (lookupFS (gs.foldl (dayPageStep force globalM now render) fs) (dayUrl g)).isSome
          = true := by
  intro gs
  induction gs with
  | nil => intro fs h; cases h
  | cons g2 rest ih =>
    intro fs h
    rcases List.mem_cons.mp h with h | h
    · subst h
      exact dayFold_preserves_some force globalM now render rest _
        (dayStep_own_some force globalM now render fs g)
    · exact ih _ h

theorem dayFold_frame (force : Bool) (globalM now : Nat) (render : DayGroupR → String)
    {name : String} :
    ∀ (gs : List DayGroupR) (fs : FS), (∀ g ∈ gs, name ≠ dayUrl g) →
      lookupFS (gs.foldl (dayPageStep force globalM now render) fs) name =
        lookupFS fs name := by
  intro gs
  induction gs with
  | nil => intro fs _; rfl
  | cons g rest ih =>
    intro fs h
    rw [List.foldl_cons, ih _ (fun g2 hg2 => h g2 (List.mem_cons_of_mem g hg2))]
    exact dayStep_frame force globalM now render fs g (h g (List.mem_cons_self g rest))

theorem wic_own_some (fs : FS) (p c : String) (force : Bool) (now : Nat) :
    (lookupFS (writeIfChangedFS fs p c force now) p).isSome = true := by
  unfold writeIfChangedFS
  split
  · rw [lookupFS_writeFS_self]
    rfl
  · rename_i h
    cases hl : lookupFS fs p with
    | some r => rfl
    | none =>
      exfalso
      unfold shouldWrite at h
      rw [hl] at h
      simp at h

theorem wic_preserves_some (fs : FS) (p c : String) (force : Bool) (now : Nat)
    {name : String} (h : (lookupFS fs name).isSome = true) :
    (lookupFS (writeIfChangedFS fs p c force now) name).isSome = true := by
  unfold writeIfChangedFS
  split
  · by_cases he : p = name
    · subst he
      rw [lookupFS_writeFS_self]
      rfl
    · rw [lookupFS_writeFS_ne _ _ _ he]
      exact h
  · exact h

theorem wic_frame (fs : FS) (p c : String) (force : Bool) (now : Nat) {name : String}
    (h : name ≠ p) :
    lookupFS (writeIfChangedFS fs p c force now) name = lookupFS fs name := by
  unfold writeIfChangedFS
  split
  · exact lookupFS_writeFS_ne _ _ _ (Ne.symm h)
  · rfl

theorem tagFold_preserves_some (force : Bool) (now : Nat) {name : String} :
    ∀ (tps : List (String × String)) (fs : FS), (lookupFS fs name).isSome = true →
      (lookupFS (tps.foldl (fun fs p => writeIfChangedFS fs (tagUrl p.1) p.2 force now) fs)
        name).isSome = true := by
  intro tps
  induction tps with
  | nil => intro fs h; exact h
  | cons p rest ih =>
    intro fs h
    exact ih _ (wic_preserves_some fs (tagUrl p.1) p.2 force now h)

theorem tagFold_mem_some (force : Bool) (now : Nat) {p : String × String} :
    ∀ (tps : List (String × String)) (fs : FS), p ∈ tps →
      (lookupFS (tps.foldl (fun fs p => writeIfChangedFS fs (tagUrl p.1) p.2 force now) fs)
        (tagUrl p.1)).isSome = true := by
  intro tps
  induction tps with
  | nil => intro fs h; cases h
  | cons p2 rest ih =>
    intro fs h
    rcases List.mem_cons.mp h with h | h
    · subst h
      exact tagFold_preserves_some force now rest _ (wic_own_some fs (tagUrl p.1) p.2 force now)
    · exact ih _ h

theorem tagFold_frame (force : Bool) (now : Nat) {name : String} :
    ∀ (tps : List (String × String)) (fs : FS), (∀ p ∈ tps, name ≠ tagUrl p.1) →
      lookupFS (tps.foldl (fun fs p => writeIfChangedFS fs (tagUrl p.1) p.2 force now) fs)
          name = lookupFS fs name := by
  intro tps
  induction tps with
  | nil => intro fs _; rfl
  | cons p rest ih =>
    intro fs h
    rw [List.foldl_cons, ih _ (fun p2 hp2 => h p2 (List.mem_cons_of_mem p hp2))]
    exact wic_frame fs (tagUrl p.1) p.2 force now (h p (List.mem_cons_self p rest))

theorem endsHtml_append (s : String) : endsHtml (s ++ ".html") = true := by
  unfold endsHtml
  rw [String.data_append]
  rw [List.reverse_append]
  have h5 : (".html".data.reverse).length = 5 := by decide
  rw [← h5, List.take_left]
  decide

/-- Every generated filename ends in `.html`. -/
theorem gen_endsHtml {groups : List DayGroupR} {tagPages : List (String × String)}
    {name : String} (h : name ∈ generatedFiles groups tagPages) : endsHtml name = true := by
  unfold generatedFiles at h
  rcases List.mem_append.mp h with h | h
  · rcases List.mem_append.mp h with h | h
    · obtain ⟨g, _, rfl⟩ := List.mem_map.mp h
      exact endsHtml_append g.date
    · simp only [List.mem_cons, List.not_mem_nil, or_false] at h
      rcases h with rfl | rfl
      · decide
      · decide
  · obtain ⟨p, _, rfl⟩ := List.mem_map.mp h
    exact endsHtml_append ("tag_" ++ p.1)

theorem contains_iff_mem (l : List String) (s : String) : l.contains s = true ↔ s ∈ l := by
  induction l with
  | nil => simp
  | cons a rest ih =>
    rw [show ((a :: rest).contains s) = (s == a || rest.contains s) from rfl]
    simp [ih]

/-- C4: after a completed build run, a name is present in the output
directory with an `.html` suffix exactly when it is one of the generated
files (`index.html`, `tags.html`, one page per day group, one `tag_<slug>`
page per tag); every other `.html` file is deleted, and files not ending in
`.html` are untouched. -/
theorem build_output_set (fs0 : FS) (groups : List DayGroupR) (render : DayGroupR → String)
    (indexHtml tagsHtml : String) (tagPages : List (String × String))
    (force : Bool) (globalM now : Nat) :
    (∀ name : String,
      ((lookupFS (buildRun fs0 groups render indexHtml tagsHtml tagPages force globalM now)
          name).isSome = true ∧ endsHtml name = true) ↔
        name ∈ generatedFiles groups tagPages) ∧
    (∀ name : String, endsHtml name = false →
      lookupFS (buildRun fs0 groups render indexHtml tagsHtml tagPages force globalM now)
          name = lookupFS fs0 name) := by
  unfold buildRun
  set fs1 := groups.foldl (dayPageStep force globalM now render) fs0 with hfs1
  set fs2 := writeIfChangedFS fs1 "index.html" indexHtml force now with hfs2
  set fs3 := writeIfChangedFS fs2 "tags.html" tagsHtml force now with hfs3
  set fs4 := tagPages.foldl (fun fs p => writeIfChangedFS fs (tagUrl p.1) p.2 force now) fs3
    with hfs4
  have hclean : ∀ name, lookupFS
      (cleanupFS fs4 (generatedFiles groups tagPages)) name =
      if !(endsHtml name && !((generatedFiles groups tagPages).contains name))
      then lookupFS fs4 name else none := by
    intro name
    exact lookupFS_filterKeys
      (fun k => !(endsHtml k && !((generatedFiles groups tagPages).contains k))) fs4 name
  have hgen_some : ∀ name, name ∈ generatedFiles groups tagPages →
      (lookupFS fs4 name).isSome = true := by
    intro name h
    unfold generatedFiles at h
    rcases List.mem_append.mp h with h | h
    · rcases List.mem_append.mp h with h | h
      · obtain ⟨g, hg, rfl⟩ := List.mem_map.mp h
        refine tagFold_preserves_some force now tagPages _ ?_
        rw [hfs3]
        refine wic_preserves_some _ _ _ _ _ ?_
        rw [hfs2]
        refine wic_preserves_some _ _ _ _ _ ?_
        exact dayFold_mem_some force globalM now render groups fs0 hg
      · simp only [List.mem_cons, List.not_mem_nil, or_false] at h
        rcases h with rfl | rfl
        · refine tagFold_preserves_some force now tagPages _ ?_
          rw [hfs3]
          refine wic_preserves_some _ _ _ _ _ ?_
          rw [hfs2]
          exact wic_own_some fs1 "index.html" indexHtml force now
        · refine tagFold_preserves_some force now tagPages _ ?_
          rw [hfs3]
          exact wic_own_some fs2 "tags.html" tagsHtml force now
    · obtain ⟨p, hp, rfl⟩ := List.mem_map.mp h
      exact tagFold_mem_some force now tagPages fs3 hp
  constructor
  · intro name
    constructor
    · rintro ⟨hsome, hhtml⟩
      rw [hclean name] at hsome
      by_cases hc : (generatedFiles groups tagPages).contains name = true
      · exact (contains_iff_mem _ _).mp hc
      · exfalso
        rw [Bool.not_eq_true] at hc
        rw [hhtml, hc] at hsome
        simp at hsome
    · intro h
      refine ⟨?_, gen_endsHtml h⟩
      rw [hclean name]
      have hc : (generatedFiles groups tagPages).contains name = true :=
        (contains_iff_mem _ _).mpr h
      rw [hc]
      simp only [Bool.not_true, Bool.and_false, Bool.not_false, if_true]
      exact hgen_some name h
  · intro name hhtml
    rw [hclean name, hhtml]
    simp only [Bool.false_and, Bool.not_false, if_true]
    have hne_tag : ∀ p ∈ tagPages, name ≠ tagUrl p.1 := by
      intro p _ he
      rw [he] at hhtml
      rw [show tagUrl p.1 = ("tag_" ++ p.1) ++ ".html" from rfl] at hhtml
      rw [endsHtml_append] at hhtml
      cases hhtml
    rw [hfs4, tagFold_frame force now tagPages fs3 hne_tag]
    have hne_tags : name ≠ "tags.html" := by
      intro he
      rw [he] at hhtml
      cases hhtml
    rw [hfs3, wic_frame fs2 "tags.html" tagsHtml force now hne_tags]
    have hne_index : name ≠ "index.html" := by
      intro he
      rw [he] at hhtml
      cases hhtml
    rw [hfs2, wic_frame fs1 "index.html" indexHtml force now hne_index]
    have hne_day : ∀ g ∈ groups, name ≠ dayUrl g := by
      intro g _ he
      rw [he] at hhtml
      rw [show dayUrl g = g.date ++ ".html" from rfl] at hhtml
      rw [endsHtml_append] at hhtml
      cases hhtml
    exact dayFold_frame force globalM now render groups fs0 hne_day

/-- Witness for C4 at a concrete input: a file not ending in `.html` is left
untouched by a run over one day group and one tag page. -/
theorem build_output_set_w :
    lookupFS
        (buildRun [("old.html", ⟨"x", 1⟩), ("notes.txt", ⟨"y", 2⟩)]
          [⟨"2025-01-01", 5⟩] (fun _ => "page") "idx" "tgs" [("cafe", "tp")] false 0 9)
        "notes.txt" =
      lookupFS [("old.html", ⟨"x", 1⟩), ("notes.txt", ⟨"y", 2⟩)] "notes.txt" :=
  (build_output_set [("old.html", ⟨"x", 1⟩), ("notes.txt", ⟨"y", 2⟩)]
    [⟨"2025-01-01", 5⟩] (fun _ => "page") "idx" "tgs" [("cafe", "tp")] false 0 9).2
    "notes.txt" (by decide)

/-! ## C9 — idempotence of `slugify` -/

theorem toNat_ofNat_valid {n : Nat} (h : n < 55296) : (Char.ofNat n).toNat = n := by
  have hv : n.isValidChar := Or.inl h
  simp [Char.ofNat, hv]
  rfl

theorem word_ranges {c : Char} (hw : isWordCh c = true) :
    (97 ≤ c.toNat ∧ c.toNat ≤ 122) ∨ (65 ≤ c.toNat ∧ c.toNat ≤ 90) ∨
      (48 ≤ c.toNat ∧ c.toNat ≤ 57) ∨ c.toNat = 95 := by
  unfold isWordCh at hw
  simp only [Bool.or_eq_true, Bool.and_eq_true, decide_eq_true_eq] at hw
  tauto

theorem word_not_space {c : Char} (hw : isWordCh c = true) : isPySpace c = false := by
  have h := word_ranges hw
  unfold isPySpace
  simp only [Bool.or_eq_false_iff, decide_eq_false_iff_not]
  omega

theorem word_ne_dash {c : Char} (hw : isWordCh c = true) : c ≠ '-' := by
  intro he
  subst he
  exact absurd hw (by decide)

theorem outCh_toNat_lt {c : Char} (h : OutCh c) : c.toNat < 128 := by
  rcases h with rfl | ⟨hw, _⟩
  · decide
  · have h2 := word_ranges hw
    omega

theorem outCh_nfkd {c : Char} (h : OutCh c) : nfkdChar c = [c] := by
  unfold nfkdChar
  rw [if_pos (outCh_toNat_lt h)]

theorem outCh_pyLower {c : Char} (h : OutCh c) : pyLowerCh c = c := by
  unfold pyLowerCh
  rcases h with rfl | ⟨_, hu⟩
  · rw [if_neg (by decide)]
  · have hne : ¬(65 ≤ c.toNat ∧ c.toNat ≤ 90) := by
      intro hcond
      have ht : isUpperAZ c = true := by
        simp [isUpperAZ]
        omega
      rw [ht] at hu
      cases hu
    rw [if_neg hne]

theorem pyLower_not_upper (c : Char) : isUpperAZ (pyLowerCh c) = false := by
  unfold pyLowerCh
  by_cases h : 65 ≤ c.toNat ∧ c.toNat ≤ 90
  · rw [if_pos h]
    have ht : (Char.ofNat (c.toNat + 32)).toNat = c.toNat + 32 :=
      toNat_ofNat_valid (by omega)
    simp [isUpperAZ, ht]
    omega
  · rw [if_neg h]
    simp [isUpperAZ]
    omega

theorem mem_collapseRuns : ∀ (l : List Char) (b : Bool) (c : Char), c ∈ collapseRuns b l →
    c = '-' ∨ (c ∈ l ∧ isDashWs c = false) := by
  intro l
  induction l with
  | nil =>
    intro b c hc
    cases b
    · simp [collapseRuns] at hc
    · simp [collapseRuns] at hc
      exact Or.inl hc
  | cons d rest ih =>
    intro b c hc
    unfold collapseRuns at hc
    by_cases hd : isDashWs d = true
    · rw [if_pos hd] at hc
      rcases ih true c hc with h | ⟨h1, h2⟩
      · exact Or.inl h
      · exact Or.inr ⟨List.mem_cons_of_mem d h1, h2⟩
    · rw [Bool.not_eq_true] at hd
      rw [if_neg (by simp [hd])] at hc
      cases b
      · rw [if_neg Bool.false_ne_true] at hc
        rcases List.mem_cons.mp hc with rfl | hc2
        · exact Or.inr ⟨List.mem_cons_self c rest, hd⟩
        · rcases ih false c hc2 with h | ⟨h1, h2⟩
          · exact Or.inl h
          · exact Or.inr ⟨List.mem_cons_of_mem d h1, h2⟩
      · rw [if_pos rfl] at hc
        rcases List.mem_cons.mp hc with rfl | hc2
        · exact Or.inl rfl
        · rcases List.mem_cons.mp hc2 with rfl | hc3
          · exact Or.inr ⟨List.mem_cons_self c rest, hd⟩
          · rcases ih false c hc3 with h | ⟨h1, h2⟩
            · exact Or.inl h
            · exact Or.inr ⟨List.mem_cons_of_mem d h1, h2⟩

theorem dashws_of_not {d : Char} (hd : isDashWs d = false) : d ≠ '-' := by
  intro he
  subst he
  exact absurd hd (by decide)

theorem chain'_collapseRuns : ∀ (l : List Char) (b : Bool),
    List.Chain' NoDD (collapseRuns b l) := by
  intro l
  induction l with
  | nil =>
    intro b
    cases b
    · simp [collapseRuns]
    · simp [collapseRuns]
  | cons d rest ih =>
    intro b
    unfold collapseRuns
    by_cases hd : isDashWs d = true
    · rw [if_pos hd]
      exact ih true
    · rw [Bool.not_eq_true] at hd
      rw [if_neg (by simp [hd])]
      have hdne : d ≠ '-' := dashws_of_not hd
      cases b
      · rw [if_neg Bool.false_ne_true]
        rw [List.chain'_cons']
        exact ⟨fun y _ h => hdne h.1, ih false⟩
      · rw [if_pos rfl]
        rw [List.chain'_cons']
        refine ⟨fun y hy => ?_, ?_⟩
        · simp only [List.head?_cons, Option.mem_def, Option.some.injEq] at hy
          subst hy
          exact fun h => hdne h.2
        · rw [List.chain'_cons']
          exact ⟨fun y _ h => hdne h.1, ih false⟩

theorem collapseRuns_eq_self : ∀ (l : List Char),
    (∀ c ∈ l, isPySpace c = false) → List.Chain' NoDD l →
    collapseRuns false l = l ∧ (l.head? ≠ some '-' → collapseRuns true l = '-' :: l) := by
  intro l
  induction l with
  | nil => exact fun _ _ => ⟨rfl, fun _ => rfl⟩
  | cons d rest ih =>
    intro hsp hch
    have hsp2 : ∀ c ∈ rest, isPySpace c = false :=
      fun c hc => hsp c (List.mem_cons_of_mem d hc)
    obtain ⟨ih1, ih2⟩ := ih hsp2 hch.tail
    constructor
    · show collapseRuns false (d :: rest) = d :: rest
      unfold collapseRuns
      by_cases hd : isDashWs d = true
      · rw [if_pos hd]
        have hd2 : d = '-' := by
          have hs := hsp d (List.mem_cons_self d rest)
          simp [isDashWs, hs] at hd
          exact hd
        subst hd2
        have hhd : rest.head? ≠ some '-' := by
          intro hh
          cases hrest : rest with
          | nil => rw [hrest] at hh; cases hh
          | cons r0 rtail =>
            rw [hrest] at hh
            simp only [List.head?_cons, Option.some.injEq] at hh
            subst hh
            rw [hrest] at hch
            rw [List.chain'_cons] at hch
            exact hch.1 ⟨rfl, rfl⟩
        rw [ih2 hhd]
      · rw [Bool.not_eq_true] at hd
        rw [if_neg (by simp [hd])]
        rw [if_neg Bool.false_ne_true]
        rw [ih1]
    · intro hhd
      have hdne : d ≠ '-' := by
        intro he
        exact hhd (by rw [he]; rfl)
      unfold collapseRuns
      have hd : isDashWs d = false := by
        simp [isDashWs, hsp d (List.mem_cons_self d rest), hdne]
      rw [if_neg (by simp [hd])]
      rw [if_pos rfl]
      rw [ih1]

theorem dropWhile_head_not (p : Char → Bool) : ∀ (l : List Char) (c : Char),
    (l.dropWhile p).head? = some c → p c = false := by
  intro l
  induction l with
  | nil => intro c h; cases h
  | cons d rest ih =>
    intro c h
    rw [List.dropWhile_cons] at h
    by_cases hd : p d = true
    · rw [if_pos hd] at h
      exact ih c h
    · rw [Bool.not_eq_true] at hd
      rw [if_neg (by simp [hd])] at h
      simp only [List.head?_cons, Option.some.injEq] at h
      subst h
      exact hd

theorem dropWhile_eq_self_of_head (p : Char → Bool) (l : List Char)
    (h : ∀ c, l.head? = some c → p c = false) : l.dropWhile p = l := by
  cases l with
  | nil => rfl
  | cons d rest =>
    rw [List.dropWhile_cons, if_neg (by simp [h d rfl])]

theorem stripDashes_eq_self (l : List Char) (h1 : ∀ c, l.head? = some c → c ≠ '-')
    (h2 : ∀ c, l.getLast? = some c → c ≠ '-') : stripDashes l = l := by
  unfold stripDashes
  have e1 : l.dropWhile (fun c => c = '-') = l :=
    dropWhile_eq_self_of_head _ l (fun c hc => by simp [h1 c hc])
  rw [e1]
  have e2 : l.reverse.dropWhile (fun c => c = '-') = l.reverse :=
    dropWhile_eq_self_of_head _ _ (fun c hc => by
      rw [List.head?_reverse] at hc
      simp [h2 c hc])
  rw [e2, List.reverse_reverse]

theorem flatMap_id_of (l : List Char) (f : Char → List Char) (h : ∀ c ∈ l, f c = [c]) :
    l.flatMap f = l := by
  induction l with
  | nil => rfl
  | cons d rest ih =>
    rw [List.flatMap_cons, h d (List.mem_cons_self d rest),
      ih (fun c hc => h c (List.mem_cons_of_mem d hc))]
    rfl

theorem map_id_of (l : List Char) (f : Char → Char) (h : ∀ c ∈ l, f c = c) : l.map f = l := by
  induction l with
  | nil => rfl
  | cons d rest ih =>
    rw [List.map_cons, h d (List.mem_cons_self d rest),
      ih (fun c hc => h c (List.mem_cons_of_mem d hc))]

theorem mem_stripDashes {l : List Char} {c : Char} (h : c ∈ stripDashes l) : c ∈ l := by
  unfold stripDashes at h
  rw [List.mem_reverse] at h
  have h2 : c ∈ (l.dropWhile (fun c => c = '-')).reverse :=
    List.Sublist.mem h (List.dropWhile_sublist _)
  rw [List.mem_reverse] at h2
  exact List.Sublist.mem h2 (List.dropWhile_sublist _)

theorem stripDashes_head {l : List Char} {c : Char} (h : (stripDashes l).head? = some c) :
    c ≠ '-' := by
  unfold stripDashes at h
  rw [List.head?_reverse] at h
  have hv : (l.dropWhile (fun c => c = '-')).reverse.dropWhile (fun c => c = '-') ≠ [] := by
    intro he
    rw [he] at h
    cases h
  obtain ⟨t, ht⟩ := List.dropWhile_suffix
    (l := (l.dropWhile (fun c => c = '-')).reverse) (fun c => c = '-')
  have h2 : ((l.dropWhile (fun c => c = '-')).reverse).getLast? = some c := by
    rw [← ht, List.getLast?_append_of_ne_nil _ hv]
    exact h
  rw [List.getLast?_reverse] at h2
  have h3 := dropWhile_head_not (fun c => c = '-') l c h2
  simp at h3
  exact h3

theorem stripDashes_last {l : List Char} {c : Char} (h : (stripDashes l).getLast? = some c) :
    c ≠ '-' := by
  unfold stripDashes at h
  rw [List.getLast?_reverse] at h
  have h3 := dropWhile_head_not (fun c => c = '-') _ c h
  simp at h3
  exact h3

/-- Every character of a slug is a hyphen or a lower-case word character. -/
theorem slugifyL_mem {l : List Char} {c : Char} (h : c ∈ slugifyL l) : OutCh c := by
  unfold slugifyL at h
  have hc1 := mem_stripDashes h
  rcases mem_collapseRuns _ _ _ hc1 with rfl | ⟨hmem, hnd⟩
  · exact Or.inl rfl
  · have hk := List.mem_filter.mp hmem
    have hnd2 : c ≠ '-' := dashws_of_not hnd
    have hnsp : isPySpace c = false := by
      rcases hsp : isPySpace c with _ | _
      · rfl
      · exfalso
        have : isDashWs c = true := by simp [isDashWs, hsp]
        rw [this] at hnd
        cases hnd
    have hw : isWordCh c = true := by
      have hp := hk.2
      simp only [Bool.or_eq_true, decide_eq_true_eq] at hp
      rcases hp with (hp | hp) | hp
      · exact hp
      · rw [hnsp] at hp; cases hp
      · exact absurd hp hnd2
    obtain ⟨c0, _, rfl⟩ := List.mem_map.mp hk.1
    exact Or.inr ⟨hw, pyLower_not_upper c0⟩

theorem chain'_stripDashes {l : List Char} (h : List.Chain' NoDD l) :
    List.Chain' NoDD (stripDashes l) := by
  unfold stripDashes
  have h1 : List.Chain' NoDD (l.dropWhile (fun c => c = '-')) :=
    h.suffix (List.dropWhile_suffix _)
  have h2 : List.Chain' (flip NoDD) (l.dropWhile (fun c => c = '-')).reverse := by
    rw [List.chain'_reverse]
    exact h1
  have h3 : List.Chain' (flip NoDD)
      ((l.dropWhile (fun c => c = '-')).reverse.dropWhile (fun c => c = '-')) :=
    h2.suffix (List.dropWhile_suffix _)
  rw [List.chain'_reverse]
  exact h3

theorem slugifyL_chain (l : List Char) : List.Chain' NoDD (slugifyL l) :=
  chain'_stripDashes (chain'_collapseRuns _ false)

/-- C9: `slugify` is idempotent. -/
theorem slugify_idem (s : String) : slugify (slugify s) = slugify s := by
  have hmain : ∀ l : List Char, slugifyL (slugifyL l) = slugifyL l := by
    intro l
    have hout : ∀ c ∈ slugifyL l, OutCh c := fun c hc => slugifyL_mem hc
    have hch : List.Chain' NoDD (slugifyL l) := slugifyL_chain l
    have hsp : ∀ c ∈ slugifyL l, isPySpace c = false := by
      intro c hc
      rcases hout c hc with rfl | ⟨hw, _⟩
      · decide
      · exact word_not_space hw
    have e1 : (slugifyL l).flatMap nfkdChar = slugifyL l :=
      flatMap_id_of _ _ (fun c hc => outCh_nfkd (hout c hc))
    have e2 : (slugifyL l).filter (fun c => c.toNat < 128) = slugifyL l :=
      List.filter_eq_self.mpr (fun c hc => by simpa using outCh_toNat_lt (hout c hc))
    have e3 : (slugifyL l).map pyLowerCh = slugifyL l :=
      map_id_of _ _ (fun c hc => outCh_pyLower (hout c hc))
    have e4 : (slugifyL l).filter (fun c => isWordCh c || isPySpace c || c = '-')
        = slugifyL l :=
      List.filter_eq_self.mpr (fun c hc => by
        rcases hout c hc with rfl | ⟨hw, _⟩
        · simp
        · simp [hw])
    have e5 : collapseRuns false (slugifyL l) = slugifyL l :=
      (collapseRuns_eq_self _ hsp hch).1
    have e6 : stripDashes (slugifyL l) = slugifyL l := by
      apply stripDashes_eq_self
      · intro c hc
        exact stripDashes_head hc
      · intro c hc
        exact stripDashes_last hc
    show stripDashes (collapseRuns false
      (((((slugifyL l).flatMap nfkdChar).filter (fun c => c.toNat < 128)).map
          pyLowerCh).filter (fun c => isWordCh c || isPySpace c || c = '-'))) = slugifyL l
    rw [e1, e2, e3, e4, e5, e6]
  exact congrArg String.mk (hmain s.data)

end Quareia
